import Mathlib

/-!
Verification development for the mcp-server-minecraft-mod-devdoc repository
(Python sources under src/mcp_server_minecraft_mod_devdoc/).

Strings are modelled as lists of characters.  Pure text algorithms of
providers/neoforge/provider.py are translated directly; the repository sync
logic of _ensure_repository is modelled as a state machine over an explicit
environment that records the outcome of the git subprocess invocations; the
filesystem under the cloned Documentation directory is modelled as a finite
tree.  Recursions that Python performs on derived data (paragraph splitting,
tree walking) are written with an explicit fuel argument that is always
initialised large enough, so every definition is executable by the kernel.
-/

namespace DevDoc

/-- The Python regex whitespace class (the ASCII part of a raw string built
from backslash and the letter s): space, tab, newline, carriage return,
vertical tab, form feed.  File contents here are ASCII/markdown text, so the
extra Unicode whitespace accepted by Python is not modelled. -/
def isPyWs (c : Char) : Bool :=
  c = ' ' || c = '\t' || c = '\n' || c = '\r' || c = Char.ofNat 11 || c = Char.ofNat 12

/-- Scanner for the tail of one regex match of the blank-line pattern used in
provider.py (newline, then greedily many whitespace characters, then a final
newline).  Given the characters after an opening newline, it returns the rest
of the input after the last newline inside the maximal whitespace run, or
none when no further newline occurs inside that run (no match). -/
def wsRunLastNl : List Char → Option (List Char)
  | [] => none
  | c :: t =>
    if c = '\n' then
      match wsRunLastNl t with
      | some r => some r
      | none => some t
    else if isPyWs c then wsRunLastNl t
    else none

theorem wsRunLastNl_length : ∀ {l r : List Char}, wsRunLastNl l = some r → r.length < l.length := by
  intro l
  induction l with
  | nil => intro r h; simp [wsRunLastNl] at h
  | cons c t ih =>
    intro r h
    by_cases hc : c = '\n'
    · subst hc
      rw [wsRunLastNl, if_pos rfl] at h
      cases hw : wsRunLastNl t with
      | some r2 =>
        rw [hw] at h
        simp only [Option.some.injEq] at h
        subst h
        exact Nat.lt_succ_of_lt (ih hw)
      | none =>
        rw [hw] at h
        simp only [Option.some.injEq] at h
        subst h
        exact Nat.lt_succ_self _
    · by_cases hws : isPyWs c
      · rw [wsRunLastNl, if_neg hc, if_pos hws] at h
        exact Nat.lt_succ_of_lt (ih h)
      · rw [wsRunLastNl, if_neg hc, if_neg (by simp [hws])] at h
        exact absurd h (by simp)

/-- One step of the embedding of re.split with the blank-line pattern: the
first paragraph (characters before the first match) together with the rest of
the input after the first match, if any match exists. -/
def splitFirst : List Char → List Char × Option (List Char)
  | [] => ([], none)
  | c :: t =>
    if c = '\n' then
      match wsRunLastNl t with
      | some r => ([], some r)
      | none => ('\n' :: (splitFirst t).1, (splitFirst t).2)
    else (c :: (splitFirst t).1, (splitFirst t).2)

theorem splitFirst_some_length :
    ∀ {l r : List Char}, (splitFirst l).2 = some r → r.length < l.length := by
  intro l
  induction l with
  | nil => intro r h; simp [splitFirst] at h
  | cons c t ih =>
    intro r h
    by_cases hc : c = '\n'
    · subst hc
      rw [splitFirst, if_pos rfl] at h
      cases hw : wsRunLastNl t with
      | some r2 =>
        rw [hw] at h
        simp only [Option.some.injEq] at h
        subst h
        exact Nat.lt_succ_of_lt (wsRunLastNl_length hw)
      | none =>
        rw [hw] at h
        simp only at h
        exact Nat.lt_succ_of_lt (ih h)
    · rw [splitFirst, if_neg hc] at h
      exact Nat.lt_succ_of_lt (ih h)

/-- Fueled splitter; with fuel at least the length of the input it computes
the full list of paragraphs produced by re.split with the blank-line
pattern. -/
def splitParasF : Nat → List Char → List (List Char)
  | 0, s => [s]
  | fuel + 1, s =>
    match splitFirst s with
    | (p, none) => [p]
    | (p, some r) => p :: splitParasF fuel r

/-- Embedding of the Python expression that splits file content with
re.split on the blank-line pattern (a raw string of newline, backslash-s
star, newline), as used in _build_structure and get_preview. -/
def splitParas (s : List Char) : List (List Char) := splitParasF s.length s

theorem splitParasF_congr :
    ∀ (f1 f2 : Nat) (s : List Char), s.length ≤ f1 → s.length ≤ f2 →
      splitParasF f1 s = splitParasF f2 s := by
  intro f1
  induction f1 with
  | zero =>
    intro f2 s h1 _
    have hs : s = [] := List.length_eq_zero.mp (Nat.le_zero.mp h1)
    subst hs
    cases f2 with
    | zero => rfl
    | succ f2 => simp [splitParasF, splitFirst]
  | succ f1 ih =>
    intro f2 s h1 h2
    cases f2 with
    | zero =>
      have hs : s = [] := List.length_eq_zero.mp (Nat.le_zero.mp h2)
      subst hs
      simp [splitParasF, splitFirst]
    | succ f2 =>
      simp only [splitParasF]
      cases hsp : splitFirst s with
      | mk p o =>
        cases o with
        | none => simp
        | some r =>
          simp only
          have hr : r.length < s.length := by
            have : (splitFirst s).2 = some r := by rw [hsp]
            exact splitFirst_some_length this
          exact congrArg (p :: ·)
            (ih f2 r (Nat.le_of_lt_succ (Nat.lt_of_lt_of_le hr h1))
              (Nat.le_of_lt_succ (Nat.lt_of_lt_of_le hr h2)))

theorem splitParas_of_none {s : List Char} (h : (splitFirst s).2 = none) :
    splitParas s = [(splitFirst s).1] := by
  unfold splitParas
  cases hl : s.length with
  | zero =>
    have hs : s = [] := List.length_eq_zero.mp hl
    subst hs
    simp [splitParasF, splitFirst]
  | succ n =>
    simp only [splitParasF]
    cases hsp : splitFirst s with
    | mk p o =>
      cases o with
      | none => simp
      | some r => rw [hsp] at h; simp at h

theorem splitParas_of_some {s r : List Char} (h : (splitFirst s).2 = some r) :
    splitParas s = (splitFirst s).1 :: splitParas r := by
  unfold splitParas
  have hr : r.length < s.length := splitFirst_some_length h
  cases hl : s.length with
  | zero =>
    have hs : s = [] := List.length_eq_zero.mp hl
    subst hs
    simp [splitFirst] at h
  | succ n =>
    simp only [splitParasF]
    cases hsp : splitFirst s with
    | mk p o =>
      rw [hsp] at h
      simp only at h
      subst h
      simp only
      rw [hl] at hr
      exact congrArg (p :: ·) (splitParasF_congr n r.length r (Nat.le_of_lt_succ hr) le_rfl)

/-- Pair of newline characters: the separator used to rejoin the first
paragraphs of a preview in _build_structure and get_preview. -/
def nlnl : List Char := ['\n', '\n']

/-- Embedding of the preview computation shared by _build_structure and
get_preview: split the content on blank-line boundaries, keep the first three
paragraphs, rejoin with a double newline. -/
def previewOf (content : List Char) : List Char :=
  List.intercalate nlnl ((splitParas content).take 3)

/-! ### Specification-level paragraph splitting

The specification describes the preview as splitting content on blank-line
boundaries, a boundary being one or more blank lines possibly containing
whitespace.  The following definitions formalise that wording directly in
terms of the lines of the content: the content is cut into its lines, a line
is blank when it consists only of whitespace, and a boundary is a maximal run
of blank lines that sit strictly between two newlines (a blank line needs a
newline on each side of it to separate two paragraphs). -/

/-- Cut a character list into its lines (separator: newline; empty trailing
line kept, as in Python str.split). -/
def toLines : List Char → List (List Char)
  | [] => [[]]
  | c :: t =>
    if c = '\n' then [] :: toLines t
    else
      match toLines t with
      | [] => [[c]]
      | l :: ls => (c :: l) :: ls

theorem toLines_ne_nil (s : List Char) : toLines s ≠ [] := by
  cases s with
  | nil => simp [toLines]
  | cons c t =>
    rw [toLines]
    by_cases hc : c = '\n'
    · rw [if_pos hc]; simp
    · rw [if_neg hc]
      cases toLines t <;> simp

/-- A line made only of whitespace (this includes the empty line). -/
def isBlankLine (l : List Char) : Bool := l.all isPyWs

/-- Drop a leading run of blank lines that are each followed by a further
line (a blank final line has no newline after it and thus separates
nothing). -/
def dropBlankRun : List (List Char) → List (List Char)
  | [] => []
  | l :: ls => if isBlankLine l && !ls.isEmpty then dropBlankRun ls else l :: ls

theorem dropBlankRun_length : ∀ ls : List (List Char), (dropBlankRun ls).length ≤ ls.length := by
  intro ls
  induction ls with
  | nil => simp [dropBlankRun]
  | cons l ls ih =>
    rw [dropBlankRun]
    by_cases h : isBlankLine l && !ls.isEmpty
    · rw [if_pos h]; exact Nat.le_succ_of_le ih
    · rw [if_neg h]

/-- Fueled paragraph grouping over a line list: the accumulator holds the
lines of the current paragraph already rejoined; a maximal run of interior
blank lines closes the paragraph; any other line is appended to it after a
newline. -/
def groupLinesF : Nat → List Char → List (List Char) → List (List Char)
  | _, acc, [] => [acc]
  | 0, acc, _ :: _ => [acc]
  | fuel + 1, acc, r :: rs =>
    if isBlankLine r && !rs.isEmpty then
      match dropBlankRun (r :: rs) with
      | [] => [acc]
      | x :: xs => acc :: groupLinesF fuel x xs
    else groupLinesF fuel (acc ++ '\n' :: r) rs

theorem groupLinesF_congr :
    ∀ (f1 f2 : Nat) (acc : List Char) (ls : List (List Char)),
      ls.length ≤ f1 → ls.length ≤ f2 → groupLinesF f1 acc ls = groupLinesF f2 acc ls := by
  intro f1
  induction f1 with
  | zero =>
    intro f2 acc ls h1 _
    have : ls = [] := List.length_eq_zero.mp (Nat.le_zero.mp h1)
    subst this
    cases f2 <;> rfl
  | succ f1 ih =>
    intro f2 acc ls h1 h2
    cases ls with
    | nil => cases f2 <;> rfl
    | cons r rs =>
      cases f2 with
      | zero => exact absurd h2 (by simp)
      | succ f2 =>
        rw [groupLinesF, groupLinesF]
        by_cases hb : isBlankLine r && !rs.isEmpty
        · rw [if_pos hb, if_pos hb]
          have hd : dropBlankRun (r :: rs) = dropBlankRun rs := by
            rw [dropBlankRun, if_pos hb]
          cases hx : dropBlankRun (r :: rs) with
          | nil => rfl
          | cons x xs =>
            have hlen : xs.length < rs.length + 1 := by
              have := dropBlankRun_length rs
              rw [hd] at hx
              have : (x :: xs).length ≤ rs.length := hx ▸ this
              simp only [List.length_cons] at this
              omega
            simp only [List.length_cons] at h1 h2
            exact congrArg (acc :: ·)
              (ih f2 x xs (by omega) (by omega))
        · rw [if_neg hb, if_neg hb]
          simp only [List.length_cons] at h1 h2
          exact ih f2 (acc ++ '\n' :: r) rs (by omega) (by omega)

/-- Modelled from the spec wording: paragraphs of a content string, obtained
by cutting the content into lines and splitting the line list at maximal runs
of interior blank lines, each paragraph rejoined with newlines. -/
def specParagraphs (s : List Char) : List (List Char) :=
  match toLines s with
  | [] => [[]]
  | l :: ls => groupLinesF ls.length l ls

/-- Modelled from the spec wording: the preview is the first up to three
paragraphs, rejoined with exactly one blank line between groups. -/
def specPreview (s : List Char) : List Char :=
  List.intercalate nlnl ((specParagraphs s).take 3)

/-! ### Equivalence of the implementation split and the specification split -/

/-- Prepend characters to the first group of a group list. -/
def prepHead (pre : List Char) : List (List Char) → List (List Char)
  | [] => [pre]
  | p :: ps => (pre ++ p) :: ps

theorem splitFirst_cons_of_ne {c : Char} (t : List Char) (hc : c ≠ '\n') :
    splitFirst (c :: t) = (c :: (splitFirst t).1, (splitFirst t).2) := by
  rw [splitFirst, if_neg hc]

theorem splitFirst_nl_none {t : List Char} (hw : wsRunLastNl t = none) :
    splitFirst ('\n' :: t) = ('\n' :: (splitFirst t).1, (splitFirst t).2) := by
  rw [splitFirst, if_pos rfl, hw]

theorem splitFirst_nl_some {t r : List Char} (hw : wsRunLastNl t = some r) :
    splitFirst ('\n' :: t) = ([], some r) := by
  rw [splitFirst, if_pos rfl, hw]

theorem splitParas_head_cons {c : Char} (t : List Char)
    (hstep : splitFirst (c :: t) = (c :: (splitFirst t).1, (splitFirst t).2)) :
    splitParas (c :: t) = prepHead [c] (splitParas t) := by
  cases ho : (splitFirst t).2 with
  | none =>
    rw [splitParas_of_none (s := c :: t) (by rw [hstep]; exact ho),
        splitParas_of_none ho, hstep]
    simp [prepHead]
  | some r =>
    rw [splitParas_of_some (s := c :: t) (r := r) (by rw [hstep]; exact ho),
        splitParas_of_some ho, hstep]
    simp [prepHead]

theorem splitParas_nl_some {t r : List Char} (hw : wsRunLastNl t = some r) :
    splitParas ('\n' :: t) = [] :: splitParas r := by
  rw [splitParas_of_some (s := '\n' :: t) (r := r) (by rw [splitFirst_nl_some hw]),
      splitFirst_nl_some hw]

theorem groupLinesF_prepend :
    ∀ (f : Nat) (ls : List (List Char)) (pre acc : List Char),
      groupLinesF f (pre ++ acc) ls = prepHead pre (groupLinesF f acc ls) := by
  intro f
  induction f with
  | zero =>
    intro ls pre acc
    cases ls <;> simp [groupLinesF, prepHead]
  | succ f ih =>
    intro ls pre acc
    cases ls with
    | nil => simp [groupLinesF, prepHead]
    | cons r rs =>
      rw [groupLinesF, groupLinesF]
      by_cases hb : isBlankLine r && !rs.isEmpty
      · rw [if_pos hb, if_pos hb]
        cases hx : dropBlankRun (r :: rs) with
        | nil => simp [prepHead]
        | cons x xs => simp [prepHead]
      · rw [if_neg hb, if_neg hb, List.append_assoc]
        exact ih rs pre (acc ++ '\n' :: r)

theorem wsRunLastNl_isSome_iff :
    ∀ (t : List Char) (l : List Char) (ls : List (List Char)), toLines t = l :: ls →
      ((wsRunLastNl t).isSome ↔ (isBlankLine l = true ∧ ls ≠ [])) := by
  intro t
  induction t with
  | nil =>
    intro l ls h
    simp only [toLines, List.cons.injEq] at h
    obtain ⟨hl, hls⟩ := h
    subst hl; subst hls
    simp [wsRunLastNl]
  | cons c t ih =>
    intro l ls h
    by_cases hc : c = '\n'
    · subst hc
      rw [toLines, if_pos rfl] at h
      simp only [List.cons.injEq] at h
      obtain ⟨hl, hls⟩ := h
      subst hl
      rw [wsRunLastNl, if_pos rfl]
      constructor
      · intro _
        refine ⟨by simp [isBlankLine], ?_⟩
        rw [← hls]
        exact toLines_ne_nil t
      · intro _
        cases wsRunLastNl t <;> simp
    · rw [toLines, if_neg hc] at h
      obtain ⟨l2, ls2, hT⟩ : ∃ l2 ls2, toLines t = l2 :: ls2 := by
        cases hT : toLines t with
        | nil => exact absurd hT (toLines_ne_nil t)
        | cons a b => exact ⟨a, b, rfl⟩
      rw [hT] at h
      simp only [List.cons.injEq] at h
      obtain ⟨hl, hls⟩ := h
      subst hl; subst hls
      by_cases hws : isPyWs c
      · rw [wsRunLastNl, if_neg hc, if_pos hws]
        rw [ih l2 ls2 hT]
        simp [isBlankLine, hws]
      · rw [wsRunLastNl, if_neg hc, if_neg (by simp [hws])]
        simp [isBlankLine, hws]

theorem wsRunLastNl_some_toLines :
    ∀ (t r : List Char), wsRunLastNl t = some r →
      dropBlankRun (toLines t) = toLines r := by
  intro t
  induction t with
  | nil => intro r h; simp [wsRunLastNl] at h
  | cons c t ih =>
    intro r h
    by_cases hc : c = '\n'
    · subst hc
      rw [wsRunLastNl, if_pos rfl] at h
      rw [toLines, if_pos rfl]
      have hTnn := toLines_ne_nil t
      rw [dropBlankRun, if_pos (by simp [isBlankLine, hTnn])]
      cases hw : wsRunLastNl t with
      | some r2 =>
        rw [hw] at h
        simp only [Option.some.injEq] at h
        subst h
        exact ih _ hw
      | none =>
        rw [hw] at h
        simp only [Option.some.injEq] at h
        subst h
        obtain ⟨l2, ls2, hT⟩ : ∃ l2 ls2, toLines t = l2 :: ls2 := by
          cases hT : toLines t with
          | nil => exact absurd hT (toLines_ne_nil t)
          | cons a b => exact ⟨a, b, rfl⟩
        have hiff := wsRunLastNl_isSome_iff t l2 ls2 hT
        rw [hw] at hiff
        simp only [Option.isSome_none, Bool.false_eq_true, false_iff] at hiff
        rw [hT, dropBlankRun, if_neg]
        intro hcontra
        simp only [Bool.and_eq_true, Bool.not_eq_true', List.isEmpty_eq_false] at hcontra
        exact hiff ⟨hcontra.1, by simpa using hcontra.2⟩
    · by_cases hws : isPyWs c
      · rw [wsRunLastNl, if_neg hc, if_pos hws] at h
        have hblank : isBlankLine ((toLines t).headI) = true ∧ (toLines t).tail ≠ [] := by
          obtain ⟨l2, ls2, hT⟩ : ∃ l2 ls2, toLines t = l2 :: ls2 := by
            cases hT : toLines t with
            | nil => exact absurd hT (toLines_ne_nil t)
            | cons a b => exact ⟨a, b, rfl⟩
          have hiff := wsRunLastNl_isSome_iff t l2 ls2 hT
          rw [h] at hiff
          simp only [Option.isSome_some, true_iff] at hiff
          rw [hT]
          exact ⟨hiff.1, by simpa using hiff.2⟩
        obtain ⟨l2, ls2, hT⟩ : ∃ l2 ls2, toLines t = l2 :: ls2 := by
          cases hT : toLines t with
          | nil => exact absurd hT (toLines_ne_nil t)
          | cons a b => exact ⟨a, b, rfl⟩
        rw [hT] at hblank
        simp only [List.headI, List.tail] at hblank
        have hbc : isBlankLine (c :: l2) = true := by
          simp only [isBlankLine, List.all_cons, hws, Bool.true_and]
          exact hblank.1
        rw [toLines, if_neg hc, hT]
        rw [dropBlankRun, if_pos
          (by rw [hbc, List.isEmpty_eq_false.mpr hblank.2]; rfl)]
        have := ih r h
        rw [hT, dropBlankRun, if_pos
          (by rw [hblank.1, List.isEmpty_eq_false.mpr hblank.2]; rfl)] at this
        exact this
      · rw [wsRunLastNl, if_neg hc, if_neg (by simp [hws])] at h
        exact absurd h (by simp)

theorem toLines_dest (s : List Char) : ∃ l ls, toLines s = l :: ls := by
  cases hT : toLines s with
  | nil => exact absurd hT (toLines_ne_nil s)
  | cons a b => exact ⟨a, b, rfl⟩

theorem specParagraphs_of_toLines {s : List Char} {l : List Char} {ls : List (List Char)}
    (hT : toLines s = l :: ls) : specParagraphs s = groupLinesF ls.length l ls := by
  unfold specParagraphs
  rw [hT]

theorem specParagraphs_cons_ne {c : Char} {t : List Char} (hc : c ≠ '\n') :
    specParagraphs (c :: t) = prepHead [c] (specParagraphs t) := by
  obtain ⟨l, ls, hT⟩ := toLines_dest t
  have h1 : toLines (c :: t) = (c :: l) :: ls := by rw [toLines, if_neg hc, hT]
  rw [specParagraphs_of_toLines h1, specParagraphs_of_toLines hT,
      show (c :: l) = [c] ++ l from rfl, groupLinesF_prepend]

theorem specParagraphs_nl_none {t : List Char} (hw : wsRunLastNl t = none) :
    specParagraphs ('\n' :: t) = prepHead ['\n'] (specParagraphs t) := by
  obtain ⟨l, ls, hT⟩ := toLines_dest t
  have h1 : toLines ('\n' :: t) = [] :: l :: ls := by rw [toLines, if_pos rfl, hT]
  have hcond : ¬((isBlankLine l && !ls.isEmpty) = true) := by
    have hiff := wsRunLastNl_isSome_iff t l ls hT
    rw [hw] at hiff
    simp only [Option.isSome_none, Bool.false_eq_true, false_iff] at hiff
    intro hcontra
    simp only [Bool.and_eq_true, Bool.not_eq_true', List.isEmpty_eq_false] at hcontra
    exact hiff ⟨hcontra.1, by simpa using hcontra.2⟩
  rw [specParagraphs_of_toLines h1, specParagraphs_of_toLines hT]
  simp only [List.length_cons, groupLinesF, if_neg hcond, List.nil_append]
  rw [show ('\n' :: l) = ['\n'] ++ l from rfl, groupLinesF_prepend]

theorem specParagraphs_nl_some {t r : List Char} (hw : wsRunLastNl t = some r) :
    specParagraphs ('\n' :: t) = [] :: specParagraphs r := by
  obtain ⟨l, ls, hT⟩ := toLines_dest t
  obtain ⟨x, xs, hR⟩ := toLines_dest r
  have h1 : toLines ('\n' :: t) = [] :: l :: ls := by rw [toLines, if_pos rfl, hT]
  have hcond : (isBlankLine l && !ls.isEmpty) = true := by
    have hiff := wsRunLastNl_isSome_iff t l ls hT
    rw [hw] at hiff
    simp only [Option.isSome_some, true_iff] at hiff
    rw [hiff.1, List.isEmpty_eq_false.mpr hiff.2]
    rfl
  have hdrop : dropBlankRun (l :: ls) = x :: xs := by
    have := wsRunLastNl_some_toLines t r hw
    rw [hT, hR] at this
    exact this
  have hxs : xs.length ≤ ls.length := by
    have h2 := dropBlankRun_length ls
    have h3 : dropBlankRun (l :: ls) = dropBlankRun ls := by
      rw [dropBlankRun, if_pos hcond]
    rw [h3] at hdrop
    have h4 : (x :: xs).length ≤ ls.length := hdrop ▸ h2
    simp only [List.length_cons] at h4
    omega
  rw [specParagraphs_of_toLines h1, specParagraphs_of_toLines hR]
  simp only [List.length_cons, groupLinesF, if_pos hcond, hdrop]
  exact congrArg ([] :: ·) (groupLinesF_congr ls.length xs.length x xs hxs le_rfl)

/-- The implementation splitting (re.split on the blank-line pattern) agrees
with the specification wording (cutting on maximal runs of interior blank
lines) on every content string. -/
theorem splitParas_eq_specParagraphs (s : List Char) : splitParas s = specParagraphs s := by
  cases s with
  | nil => rfl
  | cons c t =>
    by_cases hc : c = '\n'
    · subst hc
      cases hw : wsRunLastNl t with
      | some r =>
        rw [splitParas_nl_some hw, specParagraphs_nl_some hw,
            splitParas_eq_specParagraphs r]
      | none =>
        rw [splitParas_head_cons t (splitFirst_nl_none hw),
            specParagraphs_nl_none hw, splitParas_eq_specParagraphs t]
    · rw [splitParas_head_cons t (splitFirst_cons_of_ne t hc),
          specParagraphs_cons_ne hc, splitParas_eq_specParagraphs t]
termination_by s.length
decreasing_by
  all_goals first
    | exact Nat.lt_succ_of_lt (wsRunLastNl_length hw)
    | exact Nat.lt_succ_self _

/-! ### Boundary-free content -/

/-- Whether a content string contains a blank-line boundary, i.e. an
occurrence of the regex pattern used by the provider. -/
def hasBlankBoundary : List Char → Bool
  | [] => false
  | c :: t => (c = '\n' && (wsRunLastNl t).isSome) || hasBlankBoundary t

theorem splitParas_of_no_boundary :
    ∀ {s : List Char}, hasBlankBoundary s = false → splitParas s = [s] := by
  intro s
  induction s with
  | nil => intro _; rfl
  | cons c t ih =>
    intro h
    rw [hasBlankBoundary] at h
    simp only [Bool.or_eq_false_iff, Bool.and_eq_false_iff] at h
    obtain ⟨h1, h2⟩ := h
    by_cases hc : c = '\n'
    · subst hc
      have hw : wsRunLastNl t = none := by
        rcases h1 with h1 | h1
        · simp at h1
        · simpa using h1
      rw [splitParas_head_cons t (splitFirst_nl_none hw), ih h2]
      rfl
    · rw [splitParas_head_cons t (splitFirst_cons_of_ne t hc), ih h2]
      rfl

theorem hasBlankBoundary_append_no_nl :
    ∀ {pre : List Char}, (∀ c ∈ pre, c ≠ '\n') → ∀ (s : List Char),
      hasBlankBoundary (pre ++ s) = hasBlankBoundary s := by
  intro pre
  induction pre with
  | nil => intro _ s; rfl
  | cons c p ih =>
    intro hnl s
    have hc : c ≠ '\n' := hnl c (by simp)
    rw [List.cons_append, hasBlankBoundary, ih (fun d hd => hnl d (by simp [hd])) s]
    simp [hc]

theorem splitFirst_append_no_nl :
    ∀ {pre : List Char}, (∀ c ∈ pre, c ≠ '\n') → ∀ (s : List Char),
      splitFirst (pre ++ s) = (pre ++ (splitFirst s).1, (splitFirst s).2) := by
  intro pre
  induction pre with
  | nil => intro _ s; rfl
  | cons c p ih =>
    intro hnl s
    have hc : c ≠ '\n' := hnl c (by simp)
    rw [List.cons_append, splitFirst_cons_of_ne _ hc, ih (fun d hd => hnl d (by simp [hd])) s]
    rfl

theorem splitParas_append_no_nl {pre : List Char} (hnl : ∀ c ∈ pre, c ≠ '\n')
    (s : List Char) :
    splitParas (pre ++ s) = prepHead pre (splitParas s) := by
  cases ho : (splitFirst s).2 with
  | none =>
    rw [splitParas_of_none (s := pre ++ s) (by rw [splitFirst_append_no_nl hnl s]; exact ho),
        splitParas_of_none ho, splitFirst_append_no_nl hnl s]
    rfl
  | some r =>
    rw [splitParas_of_some (s := pre ++ s) (r := r)
          (by rw [splitFirst_append_no_nl hnl s]; exact ho),
        splitParas_of_some ho, splitFirst_append_no_nl hnl s]
    rfl

theorem intercalate_cons_head (sep a : List Char) (t : List (List Char)) :
    ∃ z, List.intercalate sep (a :: t) = a ++ z := by
  cases t with
  | nil => exact ⟨[], by simp [List.intercalate]⟩
  | cons b t =>
    refine ⟨sep ++ List.intercalate sep (b :: t), ?_⟩
    simp only [List.intercalate, List.intersperse]
    simp [List.flatten, List.append_assoc]

theorem previewOf_of_no_boundary {s : List Char} (h : hasBlankBoundary s = false) :
    previewOf s = s := by
  rw [previewOf, splitParas_of_no_boundary h]
  simp [List.intercalate]

/-! ### Title extraction -/

/-- The character set passed to str.strip in _build_structure: hash mark and
space. -/
def isHashSpace (c : Char) : Bool := c = '#' || c = ' '

/-- Embedding of the Python expression stripping a string with the hash-space
character set: characters in the set are removed from both ends. -/
def stripHashSpace (l : List Char) : List Char :=
  ((l.dropWhile isHashSpace).reverse.dropWhile isHashSpace).reverse

/-- Embedding of the first-line selection in _build_structure: the content up
to the first newline, or the file name when the content is empty. -/
def firstLineOf (content name : List Char) : List Char :=
  if content.isEmpty then name else content.takeWhile (fun c => !(c = '\n'))

/-- Embedding of the title computation in _build_structure. -/
def titleOf (content name : List Char) : List Char :=
  stripHashSpace (firstLineOf content name)

/-- The title the specification sentence literally describes: only leading
hash/space characters removed from the first line. -/
def specTitleLeadingOnly (content name : List Char) : List Char :=
  (firstLineOf content name).dropWhile isHashSpace

theorem dropWhile_head_not {p : Char → Bool} :
    ∀ (l : List Char) (x : Char) (xs : List Char), l.dropWhile p = x :: xs → p x = false := by
  intro l
  induction l with
  | nil => intro x xs h; simp [List.dropWhile] at h
  | cons c t ih =>
    intro x xs h
    rw [List.dropWhile] at h
    by_cases hc : p c
    · rw [hc] at h
      exact ih x xs (by simpa using h)
    · simp only [Bool.not_eq_true] at hc
      rw [hc] at h
      simp only [List.cons.injEq] at h
      rw [← h.1]
      exact hc

theorem takeWhile_all {p : Char → Bool} :
    ∀ (l : List Char), ∀ c ∈ l.takeWhile p, p c = true := by
  intro l
  induction l with
  | nil => intro c h; simp [List.takeWhile] at h
  | cons a t ih =>
    intro c h
    rw [List.takeWhile] at h
    by_cases ha : p a
    · rw [ha] at h
      simp only [List.mem_cons] at h
      rcases h with h | h
      · rw [h]; exact ha
      · exact ih c h
    · simp only [Bool.not_eq_true] at ha
      rw [ha] at h
      simp at h

/-- Decomposition produced by the two-ended strip: the input is a run of
stripped characters, then the result, then another run of stripped
characters, and the result neither begins nor ends with a strippable
character. -/
theorem stripHashSpace_decomp (l : List Char) :
    ∃ pre post, l = pre ++ stripHashSpace l ++ post
      ∧ (∀ c ∈ pre, isHashSpace c = true) ∧ (∀ c ∈ post, isHashSpace c = true)
      ∧ (∀ x xs, stripHashSpace l = x :: xs →
          isHashSpace x = false
          ∧ isHashSpace ((x :: xs).getLast (List.cons_ne_nil x xs)) = false) := by
  refine ⟨l.takeWhile isHashSpace,
    ((l.dropWhile isHashSpace).reverse.takeWhile isHashSpace).reverse, ?_, ?_, ?_, ?_⟩
  · have hm : (l.dropWhile isHashSpace) =
        stripHashSpace l ++ ((l.dropWhile isHashSpace).reverse.takeWhile isHashSpace).reverse := by
      conv_lhs => rw [← List.reverse_reverse (l.dropWhile isHashSpace)]
      conv_lhs =>
        rw [← List.takeWhile_append_dropWhile (p := isHashSpace)
              (l := (l.dropWhile isHashSpace).reverse)]
      rw [List.reverse_append]
      rfl
    conv_lhs => rw [← List.takeWhile_append_dropWhile (p := isHashSpace) (l := l), hm]
    rw [List.append_assoc]
  · exact takeWhile_all l
  · intro c hc
    rw [List.mem_reverse] at hc
    exact takeWhile_all _ c hc
  · intro x xs h
    have hr : (l.dropWhile isHashSpace).reverse.dropWhile isHashSpace = (x :: xs).reverse := by
      have : stripHashSpace l = x :: xs := h
      rw [stripHashSpace] at this
      rw [← this, List.reverse_reverse]
    obtain ⟨y, ys, hys⟩ : ∃ y ys,
        (l.dropWhile isHashSpace).reverse.dropWhile isHashSpace = y :: ys := by
      cases hys : (l.dropWhile isHashSpace).reverse.dropWhile isHashSpace with
      | nil => rw [hys] at hr; exact absurd hr.symm (by simp)
      | cons a b => exact ⟨a, b, rfl⟩
    have hy : isHashSpace y = false := dropWhile_head_not _ y ys hys
    constructor
    · -- the head of the stripped result is the head of the dropWhile result
      have hm : (l.dropWhile isHashSpace) =
          (x :: xs) ++ ((l.dropWhile isHashSpace).reverse.takeWhile isHashSpace).reverse := by
        conv_lhs => rw [← List.reverse_reverse (l.dropWhile isHashSpace)]
        conv_lhs =>
          rw [← List.takeWhile_append_dropWhile (p := isHashSpace)
                (l := (l.dropWhile isHashSpace).reverse)]
        rw [List.reverse_append, hr, List.reverse_reverse]
      rw [List.cons_append] at hm
      exact dropWhile_head_not _ x _ hm
    · -- the last of the stripped result is the head of the reversed dropWhile
      have h1 : (x :: xs).getLast (List.cons_ne_nil x xs) = y := by
        have h2 : (y :: ys).reverse.getLast (by simp) = (y :: ys).head (by simp) :=
          List.getLast_reverse (l := y :: ys) (by simp)
        have h3 : (y :: ys).reverse = x :: xs := by
          rw [← hys, hr, List.reverse_reverse]
        simp only [List.head_cons] at h2
        rw [← h2]
        congr 1
        · rw [h3]
      rw [h1]
      exact hy

/-! ### Filesystem model

The cloned Documentation directory is modelled as a finite tree.  Directory
listings keep the order in which the operating system returns entries
(provider.py sorts them itself).  Modelling assumption, stated once: names
within one real directory are unique, non-empty and contain no slash, so the
path concatenation performed by _build_structure reaches exactly the child
node of the current directory. -/

inductive FSNode where
  | file (content : List Char)
  | dir (entries : List (List Char × FSNode))

/-- Content of a file node (unused default for directory nodes). -/
def contentOf : FSNode → List Char
  | .file c => c
  | .dir _ => []

def isDirNode : FSNode → Bool
  | .dir _ => true
  | .file _ => false

/-- Python list membership for the suffix test file name endswith md. -/
def endsWithMd (l : List Char) : Bool := List.isSuffixOf ".md".data l

/-- An entry of a directory listing whose kind is dir, as filtered by
_build_structure. -/
def entryIsDir (e : List Char × FSNode) : Bool := isDirNode e.2

/-- An entry of a directory listing that is a file with the markdown
extension, as filtered by _build_structure. -/
def entryIsMdFile (e : List Char × FSNode) : Bool := !isDirNode e.2 && endsWithMd e.1

/-- Lexicographic comparison of names by Unicode code point, the order the
Python list sort uses for strings. -/
def lexLe : List Char → List Char → Bool
  | [], _ => true
  | _ :: _, [] => false
  | x :: xs, y :: ys =>
    if x.toNat < y.toNat then true
    else if y.toNat < x.toNat then false
    else lexLe xs ys

theorem lexLe_total : ∀ a b : List Char, (lexLe a b || lexLe b a) = true := by
  intro a
  induction a with
  | nil => intro b; simp [lexLe]
  | cons x xs ih =>
    intro b
    cases b with
    | nil => simp [lexLe]
    | cons y ys =>
      rw [lexLe, lexLe]
      by_cases h1 : x.toNat < y.toNat
      · rw [if_pos h1]; simp
      · rw [if_neg h1]
        by_cases h2 : y.toNat < x.toNat
        · rw [if_pos h2, if_pos h2]; simp
        · rw [if_neg h2, if_neg h1, if_neg h2]
          exact ih ys

theorem lexLe_trans : ∀ a b c : List Char,
    lexLe a b = true → lexLe b c = true → lexLe a c = true := by
  intro a
  induction a with
  | nil => intro b c _ _; simp [lexLe]
  | cons x xs ih =>
    intro b c hab hbc
    cases b with
    | nil => simp [lexLe] at hab
    | cons y ys =>
      cases c with
      | nil => simp [lexLe] at hbc
      | cons z zs =>
        rw [lexLe] at hab hbc ⊢
        by_cases h1 : x.toNat < y.toNat
        · by_cases h2 : y.toNat < z.toNat
          · rw [if_pos (Nat.lt_trans h1 h2)]
          · rw [if_neg h2] at hbc
            by_cases h3 : z.toNat < y.toNat
            · rw [if_pos h3] at hbc; simp at hbc
            · have hyz : y.toNat = z.toNat :=
                Nat.le_antisymm (Nat.le_of_not_lt h3) (Nat.le_of_not_lt h2)
              rw [if_pos (hyz ▸ h1)]
        · rw [if_neg h1] at hab
          by_cases h4 : y.toNat < x.toNat
          · rw [if_pos h4] at hab; simp at hab
          · have hxy : x.toNat = y.toNat :=
              Nat.le_antisymm (Nat.le_of_not_lt h4) (Nat.le_of_not_lt h1)
            rw [if_neg h4] at hab
            by_cases h2 : y.toNat < z.toNat
            · rw [if_pos (hxy ▸ h2)]
            · rw [if_neg h2] at hbc
              by_cases h3 : z.toNat < y.toNat
              · rw [if_pos h3] at hbc; simp at hbc
              · have hnx : ¬ x.toNat < z.toNat := by rw [hxy]; exact h2
                have hnz : ¬ z.toNat < x.toNat := by rw [hxy]; exact h3
                rw [if_neg hnx, if_neg hnz]
                rw [if_neg h3] at hbc
                exact ih ys zs hab hbc

/-- Embedding of the Python sort by the name key (a stable merge sort, like
the Python list sort). -/
def sortEntries (es : List (List Char × FSNode)) : List (List Char × FSNode) :=
  es.mergeSort (fun a b => lexLe a.1 b.1)

/-- Two spaces per indentation level, as in the Python string repetition. -/
def indentPad (n : Nat) : List Char := List.replicate (2 * n) ' '

/-- The characters that provider.py actually writes in front of a directory
marker line.  The source file contains a mojibake of a folder emoji: read as
UTF-8 it is the three characters U+00F0, U+0178, U+201C. -/
def dirMark : List Char := [Char.ofNat 0xF0, Char.ofNat 0x178, Char.ofNat 0x201C]

/-- The characters in front of a file marker line: the same three characters
followed by U+201E (mojibake of a document emoji). -/
def fileMark : List Char := [Char.ofNat 0xF0, Char.ofNat 0x178, Char.ofNat 0x201C, Char.ofNat 0x201E]

/-- A directory marker line at a given indentation. -/
def dirMarkerLine (ind : Nat) (name : List Char) : List Char :=
  indentPad ind ++ dirMark ++ ' ' :: name

/-- A file marker line at a given indentation: name, dash, title. -/
def fileMarkerLine (ind : Nat) (name title : List Char) : List Char :=
  indentPad ind ++ fileMark ++ ' ' :: name ++ " - ".data ++ title

/-- The block of output lines produced for one markdown file: marker line,
preview lines indented one further level, one empty separator line. -/
def fileBlock (ind : Nat) (name content : List Char) : List (List Char) :=
  fileMarkerLine ind name (titleOf content name)
    :: ((toLines (previewOf content)).map (fun l => indentPad (ind + 1) ++ l) ++ [[]])

/-- Fueled embedding of _build_structure, producing the list of output lines
(the Python code joins nested blocks with newlines, which flattens to the
same line list).  Directory entries are processed first, sorted by name, each
as a marker line followed by the recursively rendered subtree; then markdown
files, sorted by name, each as a file block. -/
def buildLinesF : Nat → FSNode → Nat → List (List Char)
  | _, .file _, _ => []
  | 0, .dir _, _ => []
  | fuel + 1, .dir entries, ind =>
    ((sortEntries (entries.filter entryIsDir)).map
      (fun e => dirMarkerLine ind e.1 :: buildLinesF fuel e.2 (ind + 1))).flatten
    ++ ((sortEntries (entries.filter entryIsMdFile)).map
      (fun e => fileBlock ind e.1 (contentOf e.2))).flatten

/-- Size of a filesystem tree: an upper bound for the recursion depth of the
structure renderer. -/
def nodeSize : FSNode → Nat
  | .file _ => 1
  | .dir es => 1 + (es.attach.map (fun e => nodeSize e.1.2)).sum
termination_by n => sizeOf n
decreasing_by
  rcases e with ⟨⟨nm, child⟩, hmem⟩
  have h2 := List.sizeOf_lt_of_mem hmem
  simp only [FSNode.dir.sizeOf_spec, Prod.mk.sizeOf_spec] at *
  omega

/-- The structure renderer on a node: the fuel is the node size, which always
dominates the directory nesting depth. -/
def buildLines (n : FSNode) (ind : Nat) : List (List Char) := buildLinesF (nodeSize n) n ind

/-- First-match lookup of a child by name in a directory listing. -/
def lookupChild : List (List Char × FSNode) → List Char → Option FSNode
  | [], _ => none
  | e :: es, nm => if e.1 = nm then some e.2 else lookupChild es nm

/-- Resolve a path, given as a segment list, against a tree. -/
def resolve : FSNode → List (List Char) → Option FSNode
  | n, [] => some n
  | .file _, _ :: _ => none
  | .dir es, seg :: rest =>
    match lookupChild es seg with
    | none => none
    | some child => resolve child rest

/-- Cut a path string at slashes. -/
def toSegs : List Char → List (List Char)
  | [] => [[]]
  | c :: t =>
    if c = '/' then [] :: toSegs t
    else
      match toSegs t with
      | [] => [[c]]
      | l :: ls => (c :: l) :: ls

/-- Path segments of a slash-separated path, empty segments discarded (the
Python pathlib treats repeated separators as one). -/
def splitPath (p : List Char) : List (List Char) :=
  (toSegs p).filter (fun s => !s.isEmpty)

/-! ### Repository state and the sync policy -/

/-- Persistent on-disk state the provider works with.  docTree is the cloned
Documentation directory (absent before the first successful clone); tsFile is
the last_update.txt file: absent, or present with either a parseable float
value or unparseable content. -/
structure RepoState where
  docTree : Option FSNode
  tsFile : Option (Option ℤ)
  branch : List Char

/-- Outcome environment for one _ensure_repository call: the current clock
and whether each git subprocess invocation would succeed, plus the tree a
successful clone or pull produces. -/
structure GitEnv where
  now : ℤ
  cloneOk : Bool
  checkoutOk : Bool
  checkoutMasterOk : Bool
  pullOk : Bool
  remoteTree : FSNode

/-- Git subprocess invocations, recorded in the order attempted. -/
inductive GitOp where
  | clone
  | checkout (branch : List Char)
  | pull

/-- Embedding of the update decision of _ensure_repository (the chain of
checks on repository existence, timestamp file existence, readability and
age). -/
def shouldUpdate (env : GitEnv) (st : RepoState) : Bool :=
  if st.docTree.isNone then true
  else
    match st.tsFile with
    | none => true
    | some none => true
    | some (some t) => decide (env.now - t > 86400)

/-- The state after a successful clone or pull: the working copy holds the
remote tree and the timestamp file is written with the current time. -/
def syncedState (env : GitEnv) (st : RepoState) : RepoState :=
  { st with docTree := some env.remoteTree, tsFile := some (some env.now) }

/-- The state after the successful fallback checkout of master: the effective
branch is permanently switched. -/
def masterState (st : RepoState) : RepoState := { st with branch := "master".data }

/-- Embedding of _ensure_repository: returns the success flag, the state
after the call, and the git operations attempted. -/
def ensureRepository (env : GitEnv) (st : RepoState) : Bool × RepoState × List GitOp :=
  if !shouldUpdate env st && st.docTree.isSome then (true, st, [])
  else
    match st.docTree with
    | none =>
      if env.cloneOk then (true, syncedState env st, [GitOp.clone])
      else (false, st, [GitOp.clone])
    | some _ =>
      if env.checkoutOk then
        if env.pullOk then
          (true, syncedState env st, [GitOp.checkout st.branch, GitOp.pull])
        else (false, st, [GitOp.checkout st.branch, GitOp.pull])
      else if env.checkoutMasterOk then
        if env.pullOk then
          (true, syncedState env (masterState st),
            [GitOp.checkout st.branch, GitOp.checkout "master".data, GitOp.pull])
        else (false, masterState st,
          [GitOp.checkout st.branch, GitOp.checkout "master".data, GitOp.pull])
      else (false, st, [GitOp.checkout st.branch, GitOp.checkout "master".data])

/-! ### Content store and provider operations -/

/-- Embedding of _get_directory_contents: listing of the directory at a path
under the Documentation root; an absent root, unresolvable path or non-
directory target yields the empty listing (the Python code catches the
error). -/
def getDirectoryContents (st : RepoState) (path : List Char) : List (List Char × FSNode) :=
  match st.docTree with
  | none => []
  | some t =>
    match resolve t (splitPath path) with
    | some (.dir es) => es
    | some (.file _) => []
    | none => []

/-- Embedding of _get_file_content: the raw content of the file at a path
under the Documentation root, or an error sentinel mentioning the relative
path.  Reading a directory raises in Python and is caught into the generic
read-failure sentinel; the interpolated exception text is abstracted. -/
def getFileContentSt (st : RepoState) (path : List Char) : List Char :=
  match st.docTree with
  | none => "Error: File does not exist: ".data ++ path
  | some t =>
    match resolve t (splitPath path) with
    | some (.file c) => c
    | some (.dir _) => "Error: Failed to read file content (read failure)".data
    | none => "Error: File does not exist: ".data ++ path

/-- Test for the version name filter of get_versions. -/
def startsWithL : List Char → List Char → Bool
  | [], _ => true
  | _ :: _, [] => false
  | p :: ps, c :: cs => p = c && startsWithL ps cs

/-- Embedding of get_versions: ensure freshness, then list versioned_docs and
keep directory names that begin with the version marker. -/
def getVersions (env : GitEnv) (st : RepoState) : List Char × RepoState :=
  let res := ensureRepository env st
  if !res.1 then ("Error: Failed to ensure repository is up to date.".data, res.2.1)
  else
    let st1 := res.2.1
    let contents := getDirectoryContents st1 "versioned_docs".data
    let versions := (contents.filter
      (fun e => entryIsDir e && startsWithL "version-".data e.1)).map (fun e => e.1)
    if versions.isEmpty then
      ("No versions found in the Neoforge documentation repository.".data, st1)
    else (List.intercalate ['\n'] versions, st1)

/-- Embedding of _build_structure as called from get_structure: render the
tree rooted at the given path, empty when the path is absent. -/
def buildStructureState (st : RepoState) (path : List Char) : List Char :=
  match st.docTree with
  | none => []
  | some t =>
    match resolve t (splitPath path) with
    | some n => List.intercalate ['\n'] (buildLines n 0)
    | none => []

/-- Embedding of get_structure.  Note: it performs no freshness check. -/
def getStructure (st : RepoState) (version : List Char) : List Char :=
  let s := buildStructureState st ("versioned_docs/".data ++ version)
  if s.isEmpty then "No structure found for version: ".data ++ version else s

/-- Embedding of the path normalization shared by get_preview and
get_full_content: append the markdown extension when missing. -/
def normalizeMd (p : List Char) : List Char :=
  if endsWithMd p then p else p ++ ".md".data

/-- The resolved relative path of a documentation file request. -/
def docFilePath (version filePath : List Char) : List Char :=
  "versioned_docs/".data ++ version ++ '/' :: normalizeMd filePath

/-- Embedding of get_preview.  Note: it performs no freshness check. -/
def getPreview (st : RepoState) (version filePath : List Char) : List Char :=
  previewOf (getFileContentSt st (docFilePath version filePath))

/-- Embedding of get_full_content.  Note: it performs no freshness check. -/
def getFullContent (st : RepoState) (version filePath : List Char) : List Char :=
  getFileContentSt st (docFilePath version filePath)

/-! ### Protocol server -/

/-- The provider registry of the MCP server: an insertion-ordered mapping
from provider names to providers (each provider modelled by its repository
state). -/
def Registry := List (List Char × RepoState)

def lookupProv : List (List Char × RepoState) → List Char → Option RepoState
  | [], _ => none
  | e :: es, nm => if e.1 = nm then some e.2 else lookupProv es nm

/-- The unknown-provider error text of the server tools (the apostrophes of
the f-string are written by code point). -/
def unknownProvMsg (reg : List (List Char × RepoState)) (provider : List Char) : List Char :=
  "Error: Provider ".data ++ Char.ofNat 39 :: provider ++ Char.ofNat 39 ::
    " not found. Available providers: ".data ++ List.intercalate ", ".data (reg.map (fun e => e.1))

/-- Embedding of the server tool get_structure: dispatch by provider name,
error text listing the registered providers when unknown.  The registry is
returned to make visible that the call leaves it unchanged. -/
def serverGetStructure (reg : List (List Char × RepoState)) (provider version : List Char) :
    List Char × List (List Char × RepoState) :=
  match lookupProv reg provider with
  | none => (unknownProvMsg reg provider, reg)
  | some st => (getStructure st version, reg)

/-- Embedding of the server tool get_full_content. -/
def serverGetFullContent (reg : List (List Char × RepoState))
    (provider version filePath : List Char) :
    List Char × List (List Char × RepoState) :=
  match lookupProv reg provider with
  | none => (unknownProvMsg reg provider, reg)
  | some st => (getFullContent st version filePath, reg)

/-! ### Claim theorems -/

/-- C2: the sync is skipped (no git operation attempted, success returned
with the state unchanged) exactly when the working copy exists and the
timestamp file is present, readable and at most 86400 seconds old; in every
other configuration a sync is attempted. -/
theorem ensure_skip_iff (env : GitEnv) (st : RepoState) :
    ((ensureRepository env st).2.2 = [] ↔
      (st.docTree.isSome = true ∧ ∃ t, st.tsFile = some (some t) ∧ env.now - t ≤ 86400))
    ∧ ((ensureRepository env st).2.2 = [] → ensureRepository env st = (true, st, [])) := by
  rcases st with ⟨dt, ts, br⟩
  cases dt with
  | none =>
    cases hcl : env.cloneOk
      <;> simp [ensureRepository, shouldUpdate, hcl]
  | some t0 =>
    cases ts with
    | none =>
      cases hco : env.checkoutOk <;> cases hpo : env.pullOk <;> cases hmo : env.checkoutMasterOk
        <;> simp [ensureRepository, shouldUpdate, hco, hpo, hmo]
    | some tsv =>
      cases tsv with
      | none =>
        cases hco : env.checkoutOk <;> cases hpo : env.pullOk <;> cases hmo : env.checkoutMasterOk
          <;> simp [ensureRepository, shouldUpdate, hco, hpo, hmo]
      | some tv =>
        by_cases hst : env.now - tv > 86400
        · cases hco : env.checkoutOk <;> cases hpo : env.pullOk
            <;> cases hmo : env.checkoutMasterOk
            <;> simp [ensureRepository, shouldUpdate, hco, hpo, hmo, hst]
            <;> omega
        · simp [ensureRepository, shouldUpdate, hst]
          omega

/-- C2 witness: a fresh timestamp with an existing working copy makes the
call skip the sync. -/
theorem ensure_skip_iff_witness :
    ensureRepository ⟨100, false, false, false, false, FSNode.dir []⟩
      ⟨some (FSNode.dir []), some (some 50), "main".data⟩ =
      (true, ⟨some (FSNode.dir []), some (some 50), "main".data⟩, []) := by
  refine (ensure_skip_iff ⟨100, false, false, false, false, FSNode.dir []⟩
    ⟨some (FSNode.dir []), some (some 50), "main".data⟩).2 ?_
  rw [(ensure_skip_iff _ _).1]
  exact ⟨rfl, 50, rfl, by decide⟩

/-- C7: when a git operation fails, _ensure_repository returns failure and
the timestamp file is untouched (same content, not created when absent);
whenever the timestamp changes at all, the call succeeded and wrote the
current time; and the call fails exactly when a sync was attempted and the
git operation the control flow reaches fails. -/
theorem ensure_failure_ts (env : GitEnv) (st : RepoState) :
    ((ensureRepository env st).1 = false → (ensureRepository env st).2.1.tsFile = st.tsFile)
    ∧ ((ensureRepository env st).2.1.tsFile ≠ st.tsFile →
        (ensureRepository env st).1 = true
        ∧ (ensureRepository env st).2.1.tsFile = some (some env.now))
    ∧ ((ensureRepository env st).1 = false ↔
        ((ensureRepository env st).2.2 ≠ [] ∧
          (match st.docTree with
            | none => env.cloneOk = false
            | some _ => (env.checkoutOk = false ∧ env.checkoutMasterOk = false)
                ∨ env.pullOk = false))) := by
  rcases st with ⟨dt, ts, br⟩
  cases dt with
  | none =>
    cases hcl : env.cloneOk
      <;> simp [ensureRepository, shouldUpdate, syncedState, masterState, hcl]
  | some t0 =>
    by_cases hup : shouldUpdate env ⟨some t0, ts, br⟩
    · cases hco : env.checkoutOk <;> cases hpo : env.pullOk <;> cases hmo : env.checkoutMasterOk
        <;> simp [ensureRepository, hup, syncedState, masterState, hco, hpo, hmo]
    · simp [ensureRepository, hup]

/-- C7 witness: with the repository present, a stale timestamp and a failing
pull, the call fails and the timestamp file content is unchanged. -/
theorem ensure_failure_ts_witness :
    (ensureRepository ⟨100000, true, true, true, false, FSNode.dir []⟩
      ⟨some (FSNode.dir []), some (some 0), "main".data⟩).2.1.tsFile = some (some 0) :=
  (ensure_failure_ts ⟨100000, true, true, true, false, FSNode.dir []⟩
    ⟨some (FSNode.dir []), some (some 0), "main".data⟩).1 (by decide)

/-- A provider state before any successful sync: no working copy, no
timestamp file. -/
def emptyRepoState : RepoState := ⟨none, none, "main".data⟩

/-- A small documentation tree for concrete scenarios: one version directory
with a subdirectory holding one markdown file. -/
def demoTree : FSNode :=
  FSNode.dir [("versioned_docs".data, FSNode.dir [("version-1.20".data, FSNode.dir
    [("blocks".data, FSNode.dir
      [("creating-blocks.md".data, FSNode.file "# Creating Blocks\n\nBody text.".data)])])])]

/-- A provider state holding the demo tree with a fresh timestamp. -/
def demoRepoState : RepoState := ⟨some demoTree, some (some 0), "main".data⟩

theorem startsWithL_self_append : ∀ p rest : List Char, startsWithL p (p ++ rest) = true := by
  intro p
  induction p with
  | nil => intro rest; rfl
  | cons c p ih => intro rest; simp [startsWithL, ih]

theorem splitParas_ne_nil (s : List Char) : splitParas s ≠ [] := by
  cases ho : (splitFirst s).2 with
  | none => rw [splitParas_of_none ho]; simp
  | some r => rw [splitParas_of_some ho]; simp

/-- With a newline-free prefix, the preview of the concatenation starts with
that prefix. -/
theorem previewOf_append_no_nl {pre : List Char} (hnl : ∀ c ∈ pre, c ≠ '\n')
    (s : List Char) : ∃ z, previewOf (pre ++ s) = pre ++ z := by
  unfold previewOf
  rw [splitParas_append_no_nl hnl s]
  obtain ⟨p, ps, hps⟩ : ∃ p ps, splitParas s = p :: ps := by
    cases hps : splitParas s with
    | nil => exact absurd hps (splitParas_ne_nil s)
    | cons a b => exact ⟨a, b, rfl⟩
  rw [hps]
  simp only [prepHead, List.take_succ_cons]
  obtain ⟨z, hz⟩ := intercalate_cons_head nlnl (pre ++ p) (ps.take 2)
  exact ⟨p ++ z, by rw [hz, List.append_assoc]⟩

/-- C8: when the requested version directory is absent (the renderer gets an
empty listing), get_structure returns exactly the literal no-structure
message followed by the version string. -/
theorem getStructure_absent (st : RepoState) (version : List Char)
    (h : ∀ t, st.docTree = some t →
      resolve t (splitPath ("versioned_docs/".data ++ version)) = none) :
    getStructure st version = "No structure found for version: ".data ++ version := by
  have hb : buildStructureState st ("versioned_docs/".data ++ version) = [] := by
    cases hdt : st.docTree with
    | none => simp only [buildStructureState, hdt]
    | some t => simp only [buildStructureState, hdt, h t hdt]
  simp only [getStructure, hb]
  rfl

/-- C8 witness: an existing working copy that has no versioned_docs entry
yields the literal message. -/
theorem getStructure_absent_witness :
    getStructure ⟨some (FSNode.dir []), some (some 0), "main".data⟩ "version-1.20".data =
      "No structure found for version: version-1.20".data := by
  have h := getStructure_absent ⟨some (FSNode.dir []), some (some 0), "main".data⟩
    "version-1.20".data (fun t ht => by
      simp only [Option.some.injEq] at ht
      rw [← ht]
      rfl)
  rw [h]
  decide

/-- C6: for every version and file_path, get_full_content (and get_preview,
which normalizes identically) appends the markdown extension exactly when it
is missing and resolves the result under the versioned_docs directory of the
version; get_full_content returns the resolved file content verbatim, the
does-not-exist sentinel when the working copy is absent or the path does not
resolve, and the read-failure sentinel when the path resolves to something
unreadable as a file (a directory).  The four resolution conjuncts cover
every possible outcome of the lookup. -/
theorem getFullContent_resolved (st : RepoState) (version p : List Char) :
    (endsWithMd p = true →
        docFilePath version p = "versioned_docs/".data ++ version ++ '/' :: p)
    ∧ (endsWithMd p = false →
        docFilePath version p = "versioned_docs/".data ++ version ++ '/' :: (p ++ ".md".data))
    ∧ (∀ t c, st.docTree = some t →
        resolve t (splitPath (docFilePath version p)) = some (FSNode.file c) →
        getFullContent st version p = c ∧ getPreview st version p = previewOf c)
    ∧ (∀ t, st.docTree = some t →
        resolve t (splitPath (docFilePath version p)) = none →
        getFullContent st version p =
          "Error: File does not exist: ".data ++ docFilePath version p)
    ∧ (st.docTree = none →
        getFullContent st version p =
          "Error: File does not exist: ".data ++ docFilePath version p)
    ∧ (∀ t es, st.docTree = some t →
        resolve t (splitPath (docFilePath version p)) = some (FSNode.dir es) →
        getFullContent st version p =
          "Error: Failed to read file content (read failure)".data) := by
  refine ⟨?_, ?_, ?_, ?_, ?_, ?_⟩
  · intro he
    unfold docFilePath normalizeMd
    rw [if_pos he]
  · intro he
    unfold docFilePath normalizeMd
    rw [if_neg (by simp [he])]
  · intro t c ht hr
    have hfc : getFileContentSt st (docFilePath version p) = c := by
      simp only [getFileContentSt, ht, hr]
    exact ⟨hfc, by unfold getPreview; rw [hfc]⟩
  · intro t ht hr
    simp only [getFullContent, getFileContentSt, ht, hr]
  · intro ht
    simp only [getFullContent, getFileContentSt, ht]
  · intro t es ht hr
    simp only [getFullContent, getFileContentSt, ht, hr]

/-- C6 witness: scenario C, a request without extension resolves to the
markdown file and returns its raw text. -/
theorem getFullContent_resolved_witness :
    getFullContent demoRepoState "version-1.20".data "blocks/creating-blocks".data =
      "# Creating Blocks\n\nBody text.".data :=
  ((getFullContent_resolved demoRepoState "version-1.20".data
    "blocks/creating-blocks".data).2.2.1 demoTree
    "# Creating Blocks\n\nBody text.".data rfl rfl).1

/-- C9: an unknown provider name makes both server tools return the error
text that lists every registered provider name, and leaves the registry
unchanged. -/
theorem server_unknown_provider (reg : List (List Char × RepoState))
    (provider version filePath : List Char) (h : lookupProv reg provider = none) :
    serverGetStructure reg provider version = (unknownProvMsg reg provider, reg)
    ∧ serverGetFullContent reg provider version filePath = (unknownProvMsg reg provider, reg)
    ∧ unknownProvMsg reg provider =
        "Error: Provider ".data ++ Char.ofNat 39 :: provider ++ Char.ofNat 39 ::
          " not found. Available providers: ".data
          ++ List.intercalate ", ".data (reg.map (fun e => e.1)) := by
  refine ⟨?_, ?_, rfl⟩
  · unfold serverGetStructure
    rw [h]
  · unfold serverGetFullContent
    rw [h]

/-- C9 witness: a one-provider registry answers an unknown name with the
error text naming the registered provider. -/
theorem server_unknown_provider_witness :
    serverGetStructure [("neoforge".data, emptyRepoState)] "fabric".data "v".data =
      (unknownProvMsg [("neoforge".data, emptyRepoState)] "fabric".data,
        [("neoforge".data, emptyRepoState)]) :=
  (server_unknown_provider [("neoforge".data, emptyRepoState)] "fabric".data "v".data
    "f".data rfl).1

/-- C10 (amended): when the resolved file is absent and the resolved path
contains no blank-line boundary, get_preview returns exactly the same
sentinel string as get_full_content. -/
theorem preview_eq_full_on_absent (st : RepoState) (version p : List Char)
    (h1 : ∀ t, st.docTree = some t →
      resolve t (splitPath (docFilePath version p)) = none)
    (h2 : hasBlankBoundary (docFilePath version p) = false) :
    getPreview st version p = getFullContent st version p
    ∧ getFullContent st version p =
        "Error: File does not exist: ".data ++ docFilePath version p := by
  have hfc : getFileContentSt st (docFilePath version p) =
      "Error: File does not exist: ".data ++ docFilePath version p := by
    cases hdt : st.docTree with
    | none => simp only [getFileContentSt, hdt]
    | some t => simp only [getFileContentSt, hdt, h1 t hdt]
  have hnb : hasBlankBoundary
      ("Error: File does not exist: ".data ++ docFilePath version p) = false := by
    rw [hasBlankBoundary_append_no_nl (by decide) (docFilePath version p)]
    exact h2
  refine ⟨?_, hfc⟩
  unfold getPreview getFullContent
  rw [hfc, previewOf_of_no_boundary hnb]

/-- C10 witness: an absent plain file name gives identical preview and full
content. -/
theorem preview_eq_full_on_absent_witness :
    getPreview emptyRepoState "v".data "a".data =
      getFullContent emptyRepoState "v".data "a".data :=
  (preview_eq_full_on_absent emptyRepoState "v".data "a".data
    (fun t ht => by simp [emptyRepoState] at ht) (by decide)).1

/-- C10 counterexample: with a file path containing blank lines, the
sentinel itself contains blank-line boundaries and the preview truncates it,
so the two operations differ on this absent file. -/
theorem preview_ne_full_counterexample :
    getPreview emptyRepoState "v".data "a\n\nb\n\nc\n\nd".data ≠
      getFullContent emptyRepoState "v".data "a\n\nb\n\nc\n\nd".data := by
  decide

/-- C1 counterexample: in scenario E (no working copy, no timestamp, remote
unreachable) get_structure does not return an Error-prefixed string but the
no-structure message, against the claim that all four operations do. -/
theorem scenario_e_counterexample :
    getStructure emptyRepoState "version-1.20".data =
      "No structure found for version: version-1.20".data
    ∧ startsWithL "Error:".data (getStructure emptyRepoState "version-1.20".data) = false := by
  decide

/-- C1 (amended): only get_versions invokes the freshness check per call; in
scenario E it fails with the Error-prefixed message and the timestamp file is
not created, get_preview and get_full_content return Error-prefixed
sentinels, and get_structure returns the no-structure message, which is not
Error-prefixed. -/
theorem scenario_e_results (env : GitEnv) (st : RepoState) (version fp : List Char)
    (hdt : st.docTree = none) (hts : st.tsFile = none) (hcl : env.cloneOk = false) :
    (getVersions env st).1 = "Error: Failed to ensure repository is up to date.".data
    ∧ (getVersions env st).2.tsFile = none
    ∧ startsWithL "Error:".data (getFullContent st version fp) = true
    ∧ startsWithL "Error:".data (getPreview st version fp) = true
    ∧ getStructure st version = "No structure found for version: ".data ++ version
    ∧ startsWithL "Error:".data (getStructure st version) = false := by
  have hens : ensureRepository env st = (false, st, [GitOp.clone]) := by
    unfold ensureRepository shouldUpdate
    rw [hdt, hcl]
    simp
  have hsent : ∀ path : List Char, getFileContentSt st path =
      "Error: File does not exist: ".data ++ path := by
    intro path
    unfold getFileContentSt
    rw [hdt]
  refine ⟨?_, ?_, ?_, ?_, ?_, ?_⟩
  · unfold getVersions
    rw [hens]
    rfl
  · unfold getVersions
    rw [hens]
    simpa using hts
  · unfold getFullContent
    rw [hsent, show "Error: File does not exist: ".data =
      "Error:".data ++ " File does not exist: ".data from rfl, List.append_assoc]
    exact startsWithL_self_append _ _
  · unfold getPreview
    rw [hsent]
    obtain ⟨z, hz⟩ := @previewOf_append_no_nl
      "Error: File does not exist: ".data (by decide) (docFilePath version fp)
    rw [hz, show "Error: File does not exist: ".data =
      "Error:".data ++ " File does not exist: ".data from rfl, List.append_assoc]
    exact startsWithL_self_append _ _
  · exact getStructure_absent st version (fun t ht => by rw [hdt] at ht; cases ht)
  · rw [getStructure_absent st version (fun t ht => by rw [hdt] at ht; cases ht)]
    rfl

/-- C1 amended witness: scenario E at concrete inputs. -/
theorem scenario_e_results_witness :
    startsWithL "Error:".data
      (getStructure emptyRepoState "version-1.21".data) = false :=
  (scenario_e_results ⟨0, false, false, false, false, FSNode.dir []⟩ emptyRepoState
    "version-1.21".data "f".data rfl rfl rfl).2.2.2.2.2

/-- C4 counterexample: the Python strip removes hash and space characters
from both ends of the first line, not only leading ones, and for empty
content the name is stripped too, not returned unchanged. -/
theorem title_strip_counterexample :
    titleOf "# Hello #\nBody".data "f.md".data = "Hello".data
    ∧ specTitleLeadingOnly "# Hello #\nBody".data "f.md".data = "Hello #".data
    ∧ titleOf "# Hello #\nBody".data "f.md".data ≠
        specTitleLeadingOnly "# Hello #\nBody".data "f.md".data
    ∧ titleOf [] "# a.md".data = "a.md".data
    ∧ titleOf [] "# a.md".data ≠ "# a.md".data := by
  decide

/-- C4 (amended): the title is the first line with hash/space characters
stripped from both ends (for empty content, the name so stripped); the
concrete example of the claim still holds. -/
theorem titleOf_strips_both (content name : List Char) :
    (∃ pre post, firstLineOf content name = pre ++ titleOf content name ++ post
      ∧ (∀ c ∈ pre, isHashSpace c = true) ∧ (∀ c ∈ post, isHashSpace c = true)
      ∧ (∀ x xs, titleOf content name = x :: xs → isHashSpace x = false
          ∧ isHashSpace ((x :: xs).getLast (List.cons_ne_nil x xs)) = false))
    ∧ (content = [] → titleOf content name = stripHashSpace name)
    ∧ titleOf "# Hello\nBody".data "f.md".data = "Hello".data := by
  refine ⟨stripHashSpace_decomp (firstLineOf content name), ?_, by decide⟩
  intro h
  subst h
  unfold titleOf firstLineOf
  rfl

/-- C4 amended witness: an empty file whose name carries no strippable
characters keeps its name as title. -/
theorem titleOf_strips_both_witness :
    titleOf [] "f.md".data = stripHashSpace "f.md".data :=
  (titleOf_strips_both [] "f.md".data).2.1 rfl

/-- C3: the computed preview equals the specification-level preview (first
three paragraphs under blank-line splitting, rejoined with one blank line)
on every content string, and a content string without any blank-line
boundary is returned whole. -/
theorem preview_matches_spec (content : List Char) :
    previewOf content = specPreview content
    ∧ (hasBlankBoundary content = false → previewOf content = content) := by
  refine ⟨?_, previewOf_of_no_boundary⟩
  unfold previewOf specPreview
  rw [splitParas_eq_specParagraphs]

/-- C3 witness: a content string without boundaries previews to itself. -/
theorem preview_matches_spec_witness :
    previewOf "single paragraph text".data = "single paragraph text".data :=
  (preview_matches_spec "single paragraph text".data).2 (by decide)

/-! ### Ordering of the rendered structure (C5) -/

theorem nodeSize_dir (es : List (List Char × FSNode)) :
    nodeSize (FSNode.dir es) = 1 + (es.map (fun e => nodeSize e.2)).sum := by
  rw [nodeSize, List.attach_map_val es (fun e => nodeSize e.2)]

theorem nodeSize_pos : ∀ n : FSNode, 1 ≤ nodeSize n := by
  intro n
  cases n with
  | file c => rw [nodeSize]
  | dir es => rw [nodeSize_dir]; omega

theorem nodeSize_child_le :
    ∀ (es : List (List Char × FSNode)) (e : List Char × FSNode), e ∈ es →
      nodeSize e.2 ≤ (es.map (fun x => nodeSize x.2)).sum := by
  intro es
  induction es with
  | nil => intro e he; simp at he
  | cons a es ih =>
    intro e he
    rw [List.map_cons, List.sum_cons]
    rcases List.mem_cons.mp he with h | h
    · rw [h]; exact Nat.le_add_right _ _
    · exact Nat.le_trans (ih e h) (Nat.le_add_left _ _)

theorem sortEntries_mem {es : List (List Char × FSNode)} {e : List Char × FSNode}
    (h : e ∈ sortEntries es) : e ∈ es := by
  rw [sortEntries, List.mem_mergeSort] at h
  exact h

/-- The renderer's fuel never runs out: any fuel at least the node size
computes the same rendering. -/
theorem buildLinesF_congr :
    ∀ (f1 f2 : Nat) (n : FSNode) (ind : Nat), nodeSize n ≤ f1 → nodeSize n ≤ f2 →
      buildLinesF f1 n ind = buildLinesF f2 n ind := by
  intro f1
  induction f1 with
  | zero =>
    intro f2 n ind h1 _
    exact absurd h1 (by have := nodeSize_pos n; omega)
  | succ f1 ih =>
    intro f2 n ind h1 h2
    cases n with
    | file c =>
      cases f2 with
      | zero => exact absurd h2 (by have := nodeSize_pos (FSNode.file c); omega)
      | succ f2 => rfl
    | dir entries =>
      cases f2 with
      | zero => exact absurd h2 (by have := nodeSize_pos (FSNode.dir entries); omega)
      | succ f2 =>
        have hch : ∀ e : List Char × FSNode, e ∈ entries →
            nodeSize e.2 ≤ f1 ∧ nodeSize e.2 ≤ f2 := by
          intro e he
          have hle := nodeSize_child_le entries e he
          rw [nodeSize_dir] at h1 h2
          omega
        simp only [buildLinesF]
        congr 1
        refine congrArg List.flatten (List.map_congr_left ?_)
        intro e he
        have hmem := List.mem_of_mem_filter (sortEntries_mem he)
        rw [ih f2 e.2 (ind + 1) (hch e hmem).1 (hch e hmem).2]

/-- The renderer satisfies the recursion of _build_structure: directories
first (sorted, each marker followed by the recursive rendering), then
markdown files (sorted, each as its block). -/
theorem buildLines_dir (entries : List (List Char × FSNode)) (ind : Nat) :
    buildLines (FSNode.dir entries) ind
      = ((sortEntries (entries.filter entryIsDir)).map
          (fun e => dirMarkerLine ind e.1 :: buildLines e.2 (ind + 1))).flatten
        ++ ((sortEntries (entries.filter entryIsMdFile)).map
          (fun e => fileBlock ind e.1 (contentOf e.2))).flatten := by
  obtain ⟨k, hk⟩ : ∃ k, nodeSize (FSNode.dir entries) = k + 1 := by
    rw [nodeSize_dir]
    exact ⟨_, Nat.add_comm _ _⟩
  unfold buildLines
  rw [hk]
  simp only [buildLinesF]
  congr 1
  refine congrArg List.flatten (List.map_congr_left ?_)
  intro e he
  have hmem := List.mem_of_mem_filter (sortEntries_mem he)
  have hle := nodeSize_child_le entries e hmem
  rw [nodeSize_dir] at hk
  rw [buildLinesF_congr k (nodeSize e.2) e.2 (ind + 1) (by omega) le_rfl]

/-- A line of rendered output is a marker line of the current level exactly
when it starts with the first character of the marker prefixes (both marker
prefixes start with U+00F0 and nothing else in a level-zero rendering
does). -/
def isMarkerLine : List Char → Bool
  | [] => false
  | c :: _ => c = Char.ofNat 0xF0

theorem indentPad_head (ind : Nat) (h : 1 ≤ ind) :
    ∃ k, indentPad ind = ' ' :: k := by
  unfold indentPad
  have h2 : 2 * ind = (2 * ind - 1) + 1 := by omega
  rw [h2, List.replicate_succ]
  exact ⟨_, rfl⟩

/-- Every line of a rendering at indentation at least one is empty or starts
with a space. -/
theorem buildLinesF_deep :
    ∀ (fuel : Nat) (n : FSNode) (ind : Nat), 1 ≤ ind →
      ∀ l ∈ buildLinesF fuel n ind, l = [] ∨ l.head? = some ' ' := by
  intro fuel
  induction fuel with
  | zero =>
    intro n ind _ l hl
    cases n <;> simp [buildLinesF] at hl
  | succ fuel ih =>
    intro n ind hind l hl
    cases n with
    | file c => simp [buildLinesF] at hl
    | dir entries =>
      simp only [buildLinesF, List.mem_append, List.mem_flatten, List.mem_map] at hl
      obtain ⟨k, hpad⟩ := indentPad_head ind hind
      rcases hl with ⟨blk, ⟨e, _, hblk⟩, hlblk⟩ | ⟨blk, ⟨e, _, hblk⟩, hlblk⟩
      · rw [← hblk] at hlblk
        rcases List.mem_cons.mp hlblk with h1 | h1
        · right
          rw [h1]
          unfold dirMarkerLine
          rw [hpad]
          rfl
        · exact ih e.2 (ind + 1) (by omega) l h1
      · rw [← hblk] at hlblk
        unfold fileBlock at hlblk
        rcases List.mem_cons.mp hlblk with h1 | h1
        · right
          rw [h1]
          unfold fileMarkerLine
          rw [hpad]
          rfl
        · rcases List.mem_append.mp h1 with h2 | h2
          · obtain ⟨pl, _, hpl⟩ := List.mem_map.mp h2
            right
            rw [← hpl]
            obtain ⟨k2, hpad2⟩ := indentPad_head (ind + 1) (by omega)
            rw [hpad2]
            rfl
          · left
            simpa using h2

theorem filter_marker_of_deep {L : List (List Char)}
    (h : ∀ l ∈ L, l = [] ∨ l.head? = some ' ') :
    L.filter isMarkerLine = [] := by
  induction L with
  | nil => rfl
  | cons l ls ih =>
    have hmf : isMarkerLine l = false := by
      rcases h l (by simp) with h1 | h1
      · rw [h1]; rfl
      · cases l with
        | nil => rfl
        | cons c cs =>
          simp only [List.head?_cons, Option.some.injEq] at h1
          subst h1
          rfl
    rw [List.filter_cons_of_neg (by simp [hmf])]
    exact ih (fun l2 hl2 => h l2 (by simp [hl2]))

theorem filter_dir_blocks (fuel : Nat) :
    ∀ L : List (List Char × FSNode),
      ((L.map (fun e => dirMarkerLine 0 e.1 :: buildLinesF fuel e.2 1)).flatten).filter
          isMarkerLine
        = L.map (fun e => dirMarkerLine 0 e.1) := by
  intro L
  induction L with
  | nil => rfl
  | cons e L ih =>
    simp only [List.map_cons, List.flatten_cons, List.filter_append]
    have hm : isMarkerLine (dirMarkerLine 0 e.1) = true := by
      unfold dirMarkerLine indentPad dirMark
      rfl
    rw [List.filter_cons_of_pos hm,
      filter_marker_of_deep (buildLinesF_deep fuel e.2 1 le_rfl), ih]
    rfl

theorem filter_file_blocks :
    ∀ L : List (List Char × FSNode),
      ((L.map (fun e => fileBlock 0 e.1 (contentOf e.2))).flatten).filter isMarkerLine
        = L.map (fun e => fileMarkerLine 0 e.1 (titleOf (contentOf e.2) e.1)) := by
  intro L
  induction L with
  | nil => rfl
  | cons e L ih =>
    simp only [List.map_cons, List.flatten_cons, List.filter_append]
    have hm : isMarkerLine (fileMarkerLine 0 e.1 (titleOf (contentOf e.2) e.1)) = true := by
      unfold fileMarkerLine indentPad fileMark
      rfl
    have hrest : ∀ l ∈ ((toLines (previewOf (contentOf e.2))).map
        (fun pl => indentPad (0 + 1) ++ pl) ++ [([] : List Char)]),
        l = [] ∨ l.head? = some ' ' := by
      intro l hl
      rcases List.mem_append.mp hl with h2 | h2
      · obtain ⟨pl, _, hpl⟩ := List.mem_map.mp h2
        right
        rw [← hpl]
        obtain ⟨k2, hpad2⟩ := indentPad_head 1 le_rfl
        rw [hpad2]
        rfl
      · left
        simpa using h2
    rw [fileBlock, List.filter_cons_of_pos hm, filter_marker_of_deep hrest, ih]
    rfl

/-- C5: at one listing level, the rendered marker lines are exactly the
directory markers followed by the markdown-file markers, each group sorted by
name; files without the markdown extension appear nowhere. -/
theorem structure_level_order (entries : List (List Char × FSNode)) :
    (buildLines (FSNode.dir entries) 0).filter isMarkerLine
      = (sortEntries (entries.filter entryIsDir)).map (fun e => dirMarkerLine 0 e.1)
        ++ (sortEntries (entries.filter entryIsMdFile)).map
            (fun e => fileMarkerLine 0 e.1 (titleOf (contentOf e.2) e.1))
    ∧ List.Pairwise (fun a b => lexLe a.1 b.1 = true)
        (sortEntries (entries.filter entryIsDir))
    ∧ List.Pairwise (fun a b => lexLe a.1 b.1 = true)
        (sortEntries (entries.filter entryIsMdFile))
    ∧ (entries.filter entryIsMdFile).all (fun e => endsWithMd e.1) = true := by
  refine ⟨?_, ?_, ?_, ?_⟩
  · obtain ⟨k, hk⟩ : ∃ k, nodeSize (FSNode.dir entries) = k + 1 := by
      rw [nodeSize]
      exact ⟨_, Nat.add_comm _ _⟩
    unfold buildLines
    rw [hk]
    simp only [buildLinesF, List.filter_append]
    rw [filter_dir_blocks, filter_file_blocks]
  · exact List.Pairwise.imp (fun h => h)
      (@List.sorted_mergeSort (List Char × FSNode) (fun a b => lexLe a.1 b.1)
        (fun a b c hab hbc => lexLe_trans a.1 b.1 c.1 hab hbc)
        (fun a b => lexLe_total a.1 b.1) (entries.filter entryIsDir))
  · exact List.Pairwise.imp (fun h => h)
      (@List.sorted_mergeSort (List Char × FSNode) (fun a b => lexLe a.1 b.1)
        (fun a b c hab hbc => lexLe_trans a.1 b.1 c.1 hab hbc)
        (fun a b => lexLe_total a.1 b.1) (entries.filter entryIsMdFile))
  · rw [List.all_eq_true]
    intro e he
    have h2 := List.of_mem_filter he
    simp only [entryIsMdFile, Bool.and_eq_true] at h2
    exact h2.2

end DevDoc
